import Mathlib

/-!
Verification of the `wx` example programs `examples/fibonacci.c` and `examples/math.c`.

The two C programs are embedded shallowly.

* A C `int` is a Lean `Int`; the result of every `int` operation is reduced to the
  32-bit two's-complement range by `wrap32` (wraparound modulo `2^32`). Theorems that
  speak of exact results state the range of the operands and results explicitly.
* Standard output is a `String`; `printf` appends the rendered format to it. Only the
  `%d` conversion occurs in the programs, and only it is rendered.
* A `for` loop is a function with a fuel argument, returning `none` when the fuel runs
  out; the recursive functions are total, by well-founded recursion on their argument.
* Termination and overflow are studied on two further renderings of the same bodies:
  `fibonacciFuel` / `factorialFuel` bound the recursion depth, and `fibonacciLog` /
  `factorialLog` record the unreduced result of every `+` or `*` performed.
-/

/-! ## Machine integers -/

/-- Smallest value of a 32-bit signed `int`. -/
def INT_MIN : Int := -2147483648

/-- Largest value of a 32-bit signed `int`. -/
def INT_MAX : Int := 2147483647

/-- Values representable in a 32-bit signed `int`. -/
def InRange (x : Int) : Prop := INT_MIN ≤ x ∧ x ≤ INT_MAX

instance (x : Int) : Decidable (InRange x) := by
  unfold InRange; infer_instance

/-- Reduction of a mathematical integer to the 32-bit signed range, modulo `2^32`. -/
def wrap32 (x : Int) : Int := (x + 2147483648) % 4294967296 - 2147483648

/-! ## `printf` with `%d` conversions -/

/-- Rendering of a format: each `%d` consumes the next argument and prints it in decimal
(with a leading `-` when negative); every other character is copied. -/
def formatChars : List Char → List Int → List Char
  | [], _ => []
  | '%' :: 'd' :: cs, a :: as => (toString a).data ++ formatChars cs as
  | c :: cs, as => c :: formatChars cs as

/-- The call `printf(fmt, args...)` on standard output `out`. -/
def printf (out : String) (fmt : String) (args : List Int) : String :=
  out ++ String.mk (formatChars fmt.data args)

/-- The text made of the given lines, each terminated by a newline. -/
def unlines (ls : List String) : String :=
  String.join (ls.map (fun l => l ++ "\n"))

/-! ## `examples/fibonacci.c` -/

namespace FibonacciC

/-- Embedding of
```c
int fibonacci(int n) {
    if (n <= 1) return n;
    return fibonacci(n - 1) + fibonacci(n - 2);
}
``` -/
def fibonacci (n : Int) : Int :=
  if n ≤ 1 then n
  else wrap32 (fibonacci (wrap32 (n - 1)) + fibonacci (wrap32 (n - 2)))
termination_by n.toNat
decreasing_by
  all_goals simp_wf
  all_goals (unfold wrap32; omega)

/-- The loop `for (int i = 0; i <= n; i++) printf("fib(%d) = %d\n", i, fibonacci(i));`
started at the given `i`; one unit of fuel is spent on each test of `i <= n`. -/
def mainLoop : Nat → Int → Int → String → Option String
  | 0, _, _, _ => none
  | fuel + 1, n, i, out =>
    if i ≤ n then
      mainLoop fuel n (wrap32 (i + 1)) (printf out "fib(%d) = %d\n" [i, fibonacci i])
    else some out

/-- Embedding of `main` of `fibonacci.c`: the text written to standard output and the
returned status. -/
def main (fuel : Nat) : Option (String × Int) :=
  let n : Int := 10
  let out := printf "" "Fibonacci sequence up to %d:\n" [n]
  match mainLoop fuel n 0 out with
  | none => none
  | some out => some (out, 0)

/-- The recursion of `fibonacci` with a bound on its depth: the same body, where a call
that would exceed the bound yields `none`. `some v` is a run that returned `v`. -/
def fibonacciFuel : Nat → Int → Option Int
  | 0, _ => none
  | fuel + 1, n =>
    if n ≤ 1 then some n
    else
      match fibonacciFuel fuel (wrap32 (n - 1)), fibonacciFuel fuel (wrap32 (n - 2)) with
      | some a, some b => some (wrap32 (a + b))
      | _, _ => none

/-- The arguments of the recursive calls made directly by `fibonacci(n)`, as the
mathematical values of `n - 1` and `n - 2` (before any reduction to 32 bits). -/
def fibonacciCallArgs (n : Int) : List Int :=
  if n ≤ 1 then [] else [n - 1, n - 2]

/-- The body of `fibonacci` instrumented with a log: the returned value together with the
mathematical (unreduced) result of every `+` performed during the call, the addition of
the call itself last. -/
def fibonacciLog (n : Int) : Int × List Int :=
  if n ≤ 1 then (n, [])
  else
    ((wrap32 ((fibonacciLog (wrap32 (n - 1))).1 + (fibonacciLog (wrap32 (n - 2))).1)),
      (fibonacciLog (wrap32 (n - 1))).2 ++ (fibonacciLog (wrap32 (n - 2))).2 ++
        [(fibonacciLog (wrap32 (n - 1))).1 + (fibonacciLog (wrap32 (n - 2))).1])
termination_by n.toNat
decreasing_by
  all_goals simp_wf
  all_goals (unfold wrap32; omega)

end FibonacciC

/-! ## `examples/math.c` -/

namespace MathC

/-- Embedding of `int add(int a, int b) { return a + b; }`. -/
def add (a b : Int) : Int := wrap32 (a + b)

/-- Embedding of `int multiply(int a, int b) { return a * b; }`. -/
def multiply (a b : Int) : Int := wrap32 (a * b)

/-- Embedding of
```c
int factorial(int n) {
    if (n <= 1) return 1;
    return n * factorial(n - 1);
}
``` -/
def factorial (n : Int) : Int :=
  if n ≤ 1 then 1
  else wrap32 (n * factorial (wrap32 (n - 1)))
termination_by n.toNat
decreasing_by
  all_goals simp_wf
  all_goals (unfold wrap32; omega)

/-- Embedding of `main` of `math.c`: the text written to standard output and the
returned status. -/
def main : String × Int :=
  let x : Int := 5
  let y : Int := 3
  let out := printf "" "Addition: %d + %d = %d\n" [x, y, add x y]
  let out := printf out "Multiplication: %d * %d = %d\n" [x, y, multiply x y]
  let out := printf out "Factorial of %d = %d\n" [x, factorial x]
  (out, 0)

/-- The recursion of `factorial` with a bound on its depth: the same body, where a call
that would exceed the bound yields `none`. `some v` is a run that returned `v`. -/
def factorialFuel : Nat → Int → Option Int
  | 0, _ => none
  | fuel + 1, n =>
    if n ≤ 1 then some 1
    else
      match factorialFuel fuel (wrap32 (n - 1)) with
      | some r => some (wrap32 (n * r))
      | none => none

/-- The argument of the recursive call made directly by `factorial(n)`, as the
mathematical value of `n - 1` (before any reduction to 32 bits). -/
def factorialCallArgs (n : Int) : List Int :=
  if n ≤ 1 then [] else [n - 1]

/-- The body of `factorial` instrumented with a log: the returned value together with the
mathematical (unreduced) result of every `*` performed during the call, the
multiplication of the call itself last. -/
def factorialLog (n : Int) : Int × List Int :=
  if n ≤ 1 then (1, [])
  else
    (wrap32 (n * (factorialLog (wrap32 (n - 1))).1),
      (factorialLog (wrap32 (n - 1))).2 ++ [n * (factorialLog (wrap32 (n - 1))).1])
termination_by n.toNat
decreasing_by
  all_goals simp_wf
  all_goals (unfold wrap32; omega)

end MathC

/-! ## Reference definitions taken from the specification -/

/-- The mathematical Fibonacci numbers: `F(0)=0`, `F(1)=1`, `F(n)=F(n-1)+F(n-2)`. -/
def specFib : Nat → Nat
  | 0 => 0
  | 1 => 1
  | n + 2 => specFib (n + 1) + specFib n

/-- The mathematical factorial: the product of all positive integers up to `n`,
with `0! = 1`. -/
def specFactorial : Nat → Nat
  | 0 => 1
  | n + 1 => (n + 1) * specFactorial n

/-- One step `(a, b) := (b, a + b)` of the iterative Fibonacci computation on `int`. -/
def fibIterStep (p : Int × Int) : Int × Int := (p.2, wrap32 (p.1 + p.2))

/-- The iterative Fibonacci computation: start from `(a, b) = (0, 1)`, apply the step
`n` times, return `a`. -/
def fibIterative (n : Nat) : Int := (fibIterStep^[n] (0, 1)).1

/-- The lines the Fibonacci program is specified to print. -/
def fibonacciDemoLines : List String :=
  "Fibonacci sequence up to 10:" ::
    (List.range 11).map (fun i => "fib(" ++ toString i ++ ") = " ++ toString (specFib i))

open FibonacciC MathC

/-! ## Machine-integer lemmas -/

theorem wrap32_of_inRange (x : Int) (h : InRange x) : wrap32 x = x := by
  unfold InRange INT_MIN INT_MAX at h
  unfold wrap32
  omega

theorem wrap32_inRange (x : Int) : InRange (wrap32 x) := by
  unfold InRange INT_MIN INT_MAX wrap32
  omega

theorem wrap32_eq_iff (x y : Int) : wrap32 x = wrap32 y ↔ x % 4294967296 = y % 4294967296 := by
  unfold wrap32
  omega

theorem wrap32_emod (x : Int) : wrap32 x % 4294967296 = x % 4294967296 := by
  unfold wrap32
  omega

theorem wrap32_add_wrap32 (x y : Int) : wrap32 (wrap32 x + wrap32 y) = wrap32 (x + y) := by
  rw [wrap32_eq_iff, Int.add_emod, wrap32_emod, wrap32_emod, ← Int.add_emod]

theorem wrap32_mul_wrap32 (x y : Int) : wrap32 (x * wrap32 y) = wrap32 (x * y) := by
  rw [wrap32_eq_iff, Int.mul_emod, wrap32_emod, ← Int.mul_emod]

/-! ## Lemmas on `fibonacci` -/

theorem fibonacci_base (n : Int) (h : n ≤ 1) : fibonacci n = n := by
  rw [fibonacci, if_pos h]

theorem fibonacci_step (n : Int) (h2 : 2 ≤ n) (hn : n ≤ 2147483648) :
    fibonacci n = wrap32 (fibonacci (n - 1) + fibonacci (n - 2)) := by
  have e1 : wrap32 (n - 1) = n - 1 := by unfold wrap32; omega
  have e2 : wrap32 (n - 2) = n - 2 := by unfold wrap32; omega
  rw [fibonacci, if_neg (by omega), e1, e2]

theorem specFib_mono : ∀ m n : Nat, m ≤ n → specFib m ≤ specFib n := by
  have step : ∀ n : Nat, specFib n ≤ specFib (n + 1) := by
    intro n
    match n with
    | 0 => decide
    | k + 1 => rw [specFib]; omega
  intro m n h
  induction h with
  | refl => exact le_refl _
  | step _ ih => exact le_trans ih (step _)

theorem fibonacci_natCast (k : Nat) (hk : (k : Int) ≤ 2147483648) :
    fibonacci (k : Int) = wrap32 (specFib k) := by
  induction k using Nat.strong_induction_on with
  | _ k ih =>
    match k, ih, hk with
    | 0, _, _ => rw [fibonacci_base _ (by decide)]; decide
    | 1, _, _ => rw [fibonacci_base _ (by decide)]; decide
    | j + 2, ih, hk =>
      have h1 := ih (j + 1) (by omega) (by omega)
      have h0 := ih j (by omega) (by omega)
      have c1 : ((j + 2 : Nat) : Int) - 1 = ((j + 1 : Nat) : Int) := by push_cast; ring
      have c0 : ((j + 2 : Nat) : Int) - 2 = (j : Int) := by push_cast; ring
      rw [fibonacci_step _ (by omega) hk, c1, c0, h1, h0, wrap32_add_wrap32, specFib]
      push_cast
      rfl

theorem fibonacci_eq_specFib (k : Nat) (hk : k ≤ 46) :
    fibonacci (k : Int) = (specFib k : Int) := by
  have hb : specFib k ≤ specFib 46 := specFib_mono k 46 hk
  have h46 : specFib 46 = 1836311903 := by decide
  rw [fibonacci_natCast k (by omega)]
  apply wrap32_of_inRange
  unfold InRange INT_MIN INT_MAX
  omega

/-! ## Lemmas on `factorial` -/

theorem factorial_base (n : Int) (h : n ≤ 1) : factorial n = 1 := by
  rw [factorial, if_pos h]

theorem factorial_step (n : Int) (h2 : 2 ≤ n) (hn : n ≤ 2147483648) :
    factorial n = wrap32 (n * factorial (n - 1)) := by
  have e1 : wrap32 (n - 1) = n - 1 := by unfold wrap32; omega
  rw [factorial, if_neg (by omega), e1]

theorem factorial_natCast (k : Nat) (hk : (k : Int) ≤ 2147483648) :
    factorial (k : Int) = wrap32 (specFactorial k) := by
  induction k with
  | zero => rw [factorial_base _ (by decide)]; decide
  | succ j ih =>
    match j, ih, hk with
    | 0, _, _ => rw [factorial_base _ (by decide)]; decide
    | i + 1, ih, hk =>
      have c1 : ((i + 1 + 1 : Nat) : Int) - 1 = ((i + 1 : Nat) : Int) := by push_cast; ring
      rw [factorial_step _ (by omega) hk, c1, ih (by omega), wrap32_mul_wrap32]
      conv_rhs => rw [specFactorial]
      push_cast
      rfl

theorem specFactorial_mono : ∀ m n : Nat, m ≤ n → specFactorial m ≤ specFactorial n := by
  have step : ∀ n : Nat, specFactorial n ≤ specFactorial (n + 1) := by
    intro n
    rw [specFactorial]
    exact Nat.le_mul_of_pos_left _ (Nat.succ_pos n)
  intro m n h
  induction h with
  | refl => exact le_refl _
  | step _ ih => exact le_trans ih (step _)

theorem factorial_eq_specFactorial (k : Nat) (hk : k ≤ 12) :
    factorial (k : Int) = (specFactorial k : Int) := by
  have hb : specFactorial k ≤ specFactorial 12 := specFactorial_mono k 12 hk
  have h12 : specFactorial 12 = 479001600 := by decide
  rw [factorial_natCast k (by omega)]
  apply wrap32_of_inRange
  unfold InRange INT_MIN INT_MAX
  omega

/-! ## Lemmas on the iterative computation -/

theorem fibIterStep_iterate (k : Nat) :
    fibIterStep^[k] (0, 1) = (wrap32 (specFib k), wrap32 (specFib (k + 1))) := by
  induction k with
  | zero => decide
  | succ j ih =>
    rw [Function.iterate_succ_apply', ih]
    simp only [fibIterStep]
    rw [wrap32_add_wrap32, specFib.eq_3 j, Nat.cast_add,
      add_comm ((specFib (j + 1) : Nat) : Int)]

/-! ## The arithmetic functions of `math.c` -/

/-- C7: `add(a, b)` returns `a + b` and is commutative: whenever `a + b` is representable
in a 32-bit signed `int`, `add(a, b) = add(b, a) = a + b` as mathematical integers. -/
theorem add_comm_exact (a b : Int) (hab : InRange (a + b)) :
    add a b = add b a ∧ add b a = a + b ∧ add a b = a + b := by
  have h1 : add a b = a + b := wrap32_of_inRange _ hab
  have h2 : add b a = a + b := by
    unfold MathC.add
    rw [add_comm b a]
    exact wrap32_of_inRange _ hab
  exact ⟨h1.trans h2.symm, h2, h1⟩

theorem add_comm_exact_witness :
    InRange ((5 : Int) + 3) ∧ add 5 3 = add 3 5 ∧ add 3 5 = 8 ∧ add 5 3 = 8 :=
  ⟨by decide, add_comm_exact 5 3 (by decide)⟩

/-- C8: `multiply(a, b)` returns `a * b` and is commutative: whenever `a * b` is
representable in a 32-bit signed `int`, `multiply(a, b) = multiply(b, a) = a * b` as
mathematical integers. -/
theorem multiply_comm_exact (a b : Int) (hab : InRange (a * b)) :
    multiply a b = multiply b a ∧ multiply b a = a * b ∧ multiply a b = a * b := by
  have h1 : multiply a b = a * b := wrap32_of_inRange _ hab
  have h2 : multiply b a = a * b := by
    unfold MathC.multiply
    rw [mul_comm b a]
    exact wrap32_of_inRange _ hab
  exact ⟨h1.trans h2.symm, h2, h1⟩

theorem multiply_comm_exact_witness :
    InRange ((5 : Int) * 3) ∧ multiply 5 3 = multiply 3 5 ∧ multiply 3 5 = 15 ∧
      multiply 5 3 = 15 :=
  ⟨by decide, multiply_comm_exact 5 3 (by decide)⟩

/-- C9: `multiply` distributes over `add` for all `int` values `a`, `b`, `c`, with
overflow modelled as wraparound modulo `2^32`:
`multiply(a, add(b, c)) = add(multiply(a, b), multiply(a, c))`. -/
theorem multiply_add_distrib (a b c : Int) :
    multiply a (add b c) = add (multiply a b) (multiply a c) := by
  unfold MathC.multiply MathC.add
  rw [wrap32_mul_wrap32, wrap32_add_wrap32, mul_add]

/-! ## `factorial` -/

/-- C2: for every `n` with `0 ≤ n ≤ 12`, `factorial(n)` is the mathematical factorial
`n!`, which fits a 32-bit signed `int`; in particular `factorial(0) = 1`,
`factorial(1) = 1` and `factorial(5) = 120`. -/
theorem factorial_correct (n : Int) (h0 : 0 ≤ n) (h12 : n ≤ 12) :
    factorial n = (specFactorial n.toNat : Int) ∧ InRange (specFactorial n.toNat) ∧
      factorial 0 = 1 ∧ factorial 1 = 1 ∧ factorial 5 = 120 := by
  have key : ∀ m : Int, 0 ≤ m → m ≤ 12 → factorial m = (specFactorial m.toNat : Int) := by
    intro m hm0 hm12
    have h := factorial_eq_specFactorial m.toNat (by omega)
    rwa [Int.toNat_of_nonneg hm0] at h
  refine ⟨key n h0 h12, ?_, ?_, ?_, ?_⟩
  · rw [← key n h0 h12]
    have h := factorial_natCast n.toNat (by omega)
    rw [Int.toNat_of_nonneg h0] at h
    rw [h]
    exact wrap32_inRange _
  · exact (key 0 (by decide) (by decide)).trans (by decide)
  · exact (key 1 (by decide) (by decide)).trans (by decide)
  · exact (key 5 (by decide) (by decide)).trans (by decide)

theorem factorial_correct_witness :
    (0 : Int) ≤ 12 ∧ (12 : Int) ≤ 12 ∧ factorial 12 = 479001600 :=
  ⟨by decide, by decide, (factorial_correct 12 (by decide) (by decide)).1.trans (by decide)⟩

/-- C6: `factorial` returns 1 for every `int` `n ≤ 1` (0 and the negative values
included), and for every `int` `n ≥ 2` it returns `n * factorial(n - 1)`, the product
being the `int` multiplication. -/
theorem factorial_unfold (n : Int) (hn : InRange n) :
    (n ≤ 1 → factorial n = 1) ∧ (2 ≤ n → factorial n = multiply n (factorial (n - 1))) := by
  refine ⟨factorial_base n, fun h2 => ?_⟩
  unfold InRange INT_MIN INT_MAX at hn
  exact factorial_step n h2 (by omega)

theorem factorial_unfold_witness :
    InRange (-7) ∧ factorial (-7) = 1 ∧ InRange 0 ∧ factorial 0 = 1 ∧
      InRange 13 ∧ factorial 13 = multiply 13 (factorial (13 - 1)) :=
  ⟨by decide, (factorial_unfold (-7) (by decide)).1 (by decide),
   by decide, (factorial_unfold 0 (by decide)).1 (by decide),
   by decide, (factorial_unfold 13 (by decide)).2 (by decide)⟩

/-! ## `fibonacci` -/

/-- C1: for every `n` with `0 ≤ n ≤ 46`, `fibonacci(n)` is the mathematical Fibonacci
number `F(n)`, which fits a 32-bit signed `int`; in particular `fibonacci(0) = 0`,
`fibonacci(1) = 1` and `fibonacci(10) = 55`. -/
theorem fibonacci_correct (n : Int) (h0 : 0 ≤ n) (h46 : n ≤ 46) :
    fibonacci n = (specFib n.toNat : Int) ∧ InRange (specFib n.toNat) ∧
      fibonacci 0 = 0 ∧ fibonacci 1 = 1 ∧ fibonacci 10 = 55 := by
  have key : ∀ m : Int, 0 ≤ m → m ≤ 46 → fibonacci m = (specFib m.toNat : Int) := by
    intro m hm0 hm46
    have h := fibonacci_eq_specFib m.toNat (by omega)
    rwa [Int.toNat_of_nonneg hm0] at h
  refine ⟨key n h0 h46, ?_, ?_, ?_, ?_⟩
  · rw [← key n h0 h46]
    have h := fibonacci_natCast n.toNat (by omega)
    rw [Int.toNat_of_nonneg h0] at h
    rw [h]
    exact wrap32_inRange _
  · exact (key 0 (by decide) (by decide)).trans (by decide)
  · exact (key 1 (by decide) (by decide)).trans (by decide)
  · exact (key 10 (by decide) (by decide)).trans (by decide)

theorem fibonacci_correct_witness :
    (0 : Int) ≤ 46 ∧ (46 : Int) ≤ 46 ∧ fibonacci 46 = 1836311903 :=
  ⟨by decide, by decide, (fibonacci_correct 46 (by decide) (by decide)).1.trans (by decide)⟩

/-- C5: for all `i` in `[2, 10]`, `fibonacci(i) = fibonacci(i-1) + fibonacci(i-2)` with
exact integer addition, the sum being representable in a 32-bit signed `int`. -/
theorem fibonacci_recurrence (i : Int) (h2 : 2 ≤ i) (h10 : i ≤ 10) :
    fibonacci i = fibonacci (i - 1) + fibonacci (i - 2) ∧
      InRange (fibonacci (i - 1) + fibonacci (i - 2)) := by
  obtain ⟨k, rfl⟩ : ∃ k : Nat, i = ((k + 2 : Nat) : Int) := ⟨(i - 2).toNat, by omega⟩
  have c1 : ((k + 2 : Nat) : Int) - 1 = ((k + 1 : Nat) : Int) := by push_cast; ring
  have c0 : ((k + 2 : Nat) : Int) - 2 = (k : Int) := by push_cast; ring
  have e2 := fibonacci_eq_specFib (k + 2) (by omega)
  have e1 := fibonacci_eq_specFib (k + 1) (by omega)
  have e0 := fibonacci_eq_specFib k (by omega)
  have hr : InRange ((specFib (k + 2) : Nat) : Int) := by
    rw [← e2, fibonacci_natCast (k + 2) (by omega)]
    exact wrap32_inRange _
  rw [c1, c0, e2, e1, e0]
  rw [specFib.eq_3 k] at hr ⊢
  push_cast at hr ⊢
  exact ⟨rfl, hr⟩

theorem fibonacci_recurrence_witness :
    (2 : Int) ≤ 10 ∧ (10 : Int) ≤ 10 ∧ fibonacci 10 = fibonacci (10 - 1) + fibonacci (10 - 2) :=
  ⟨by decide, by decide, (fibonacci_recurrence 10 (by decide) (by decide)).1⟩

/-- C10: the naive double recursion and the iterative computation agree on every `int`
`n ≥ 0`: `fibonacci(n)` equals the first component after `n` applications of
`(a, b) := (b, a + b)` to `(0, 1)`, both over 32-bit `int` arithmetic with wraparound. -/
theorem fibonacci_eq_fibIterative (n : Int) (h0 : 0 ≤ n) (hmax : n ≤ INT_MAX) :
    fibonacci n = fibIterative n.toNat := by
  unfold INT_MAX at hmax
  have h := fibonacci_natCast n.toNat (by omega)
  rw [Int.toNat_of_nonneg h0] at h
  rw [h, fibIterative, fibIterStep_iterate]

theorem fibonacci_eq_fibIterative_witness :
    (0 : Int) ≤ 47 ∧ (47 : Int) ≤ INT_MAX ∧ fibonacci 47 = fibIterative (47 : Int).toNat ∧
      fibIterative (47 : Int).toNat = -1323752223 :=
  ⟨by decide, by decide, fibonacci_eq_fibIterative 47 (by decide) (by decide),
   by simp [fibIterative, fibIterStep, wrap32]⟩

/-! ## The entry routines -/

theorem mainLoop_fuel_add (fuel k : Nat) (n i : Int) (out r : String)
    (h : mainLoop fuel n i out = some r) : mainLoop (fuel + k) n i out = some r := by
  induction fuel generalizing i out with
  | zero => simp [mainLoop] at h
  | succ f ih =>
    rw [Nat.add_right_comm, mainLoop]
    rw [mainLoop] at h
    by_cases hc : i ≤ n
    · rw [if_pos hc] at h ⊢
      exact ih _ _ h
    · rw [if_neg hc] at h ⊢
      exact h

theorem mainLoop_ten :
    mainLoop 12 10 0 "Fibonacci sequence up to 10:\n" = some (unlines fibonacciDemoLines) := by
  have v0 : fibonacci 0 = 0 := (fibonacci_eq_specFib 0 (by decide)).trans (by decide)
  have v1 : fibonacci 1 = 1 := (fibonacci_eq_specFib 1 (by decide)).trans (by decide)
  have v2 : fibonacci 2 = 1 := (fibonacci_eq_specFib 2 (by decide)).trans (by decide)
  have v3 : fibonacci 3 = 2 := (fibonacci_eq_specFib 3 (by decide)).trans (by decide)
  have v4 : fibonacci 4 = 3 := (fibonacci_eq_specFib 4 (by decide)).trans (by decide)
  have v5 : fibonacci 5 = 5 := (fibonacci_eq_specFib 5 (by decide)).trans (by decide)
  have v6 : fibonacci 6 = 8 := (fibonacci_eq_specFib 6 (by decide)).trans (by decide)
  have v7 : fibonacci 7 = 13 := (fibonacci_eq_specFib 7 (by decide)).trans (by decide)
  have v8 : fibonacci 8 = 21 := (fibonacci_eq_specFib 8 (by decide)).trans (by decide)
  have v9 : fibonacci 9 = 34 := (fibonacci_eq_specFib 9 (by decide)).trans (by decide)
  have v10 : fibonacci 10 = 55 := (fibonacci_eq_specFib 10 (by decide)).trans (by decide)
  have w1 : wrap32 (0 + 1) = 1 := by decide
  have w2 : wrap32 (1 + 1) = 2 := by decide
  have w3 : wrap32 (2 + 1) = 3 := by decide
  have w4 : wrap32 (3 + 1) = 4 := by decide
  have w5 : wrap32 (4 + 1) = 5 := by decide
  have w6 : wrap32 (5 + 1) = 6 := by decide
  have w7 : wrap32 (6 + 1) = 7 := by decide
  have w8 : wrap32 (7 + 1) = 8 := by decide
  have w9 : wrap32 (8 + 1) = 9 := by decide
  have w10 : wrap32 (9 + 1) = 10 := by decide
  have w11 : wrap32 (10 + 1) = 11 := by decide
  rw [mainLoop, if_pos (by decide), v0, w1, mainLoop, if_pos (by decide), v1, w2,
    mainLoop, if_pos (by decide), v2, w3, mainLoop, if_pos (by decide), v3, w4,
    mainLoop, if_pos (by decide), v4, w5, mainLoop, if_pos (by decide), v5, w6,
    mainLoop, if_pos (by decide), v6, w7, mainLoop, if_pos (by decide), v7, w8,
    mainLoop, if_pos (by decide), v8, w9, mainLoop, if_pos (by decide), v9, w10,
    mainLoop, if_pos (by decide), v10, w11, mainLoop, if_neg (by decide)]
  decide

/-- C3: running the Fibonacci program writes exactly 12 lines to standard output and
returns 0: the header line followed, for `i = 0, 1, ..., 10` in increasing order, by the
line `fib(i) = v` with `v` the decimal rendering of the `i`-th Fibonacci number; the last
line is `fib(10) = 55`. -/
theorem fibonacci_main_output (fuel : Nat) (h : 12 ≤ fuel) :
    FibonacciC.main fuel = some (unlines fibonacciDemoLines, 0) ∧
      fibonacciDemoLines.length = 12 ∧
      fibonacciDemoLines.getLast? = some "fib(10) = 55" ∧
      fibonacciDemoLines =
        ["Fibonacci sequence up to 10:", "fib(0) = 0", "fib(1) = 1", "fib(2) = 1",
          "fib(3) = 2", "fib(4) = 3", "fib(5) = 5", "fib(6) = 8", "fib(7) = 13",
          "fib(8) = 21", "fib(9) = 34", "fib(10) = 55"] ∧
      ∀ l ∈ fibonacciDemoLines, '\n' ∉ l.data := by
  refine ⟨?_, by decide, by decide, by decide, by decide⟩
  obtain ⟨k, rfl⟩ := Nat.exists_eq_add_of_le h
  have hp : printf "" "Fibonacci sequence up to %d:\n" [10] =
      "Fibonacci sequence up to 10:\n" := by decide
  simp only [FibonacciC.main]
  rw [hp, mainLoop_fuel_add 12 k _ _ _ _ mainLoop_ten]

theorem fibonacci_main_output_witness :
    12 ≤ 12 ∧ FibonacciC.main 12 = some (unlines fibonacciDemoLines, 0) :=
  ⟨by decide, (fibonacci_main_output 12 (by decide)).1⟩

/-- C4: running the math program writes exactly three lines to standard output, in this
order, and returns 0: `Addition: 5 + 3 = 8`, `Multiplication: 5 * 3 = 15`,
`Factorial of 5 = 120`. -/
theorem math_main_output :
    MathC.main =
      (unlines ["Addition: 5 + 3 = 8", "Multiplication: 5 * 3 = 15", "Factorial of 5 = 120"],
        0) := by
  have hf : factorial 5 = 120 := (factorial_eq_specFactorial 5 (by decide)).trans (by decide)
  have ha : add 5 3 = 8 := by decide
  have hm : multiply 5 3 = 15 := by decide
  simp only [MathC.main]
  rw [hf, ha, hm]
  decide

/-! ## Depth-bounded runs of the recursive functions -/

theorem wrap32_le_of_le (x b : Int) (hx : -2147483648 ≤ x) (hb : x ≤ b) : wrap32 x ≤ b := by
  unfold wrap32
  omega

theorem fibonacciFuel_eq (fuel : Nat) :
    ∀ n : Int, 1 ≤ fuel → n ≤ (fuel : Int) → fibonacciFuel fuel n = some (fibonacci n) := by
  induction fuel with
  | zero => intro n h1 _; omega
  | succ f ih =>
    intro n _ hn
    by_cases hb : n ≤ 1
    · rw [fibonacciFuel, if_pos hb, fibonacci_base n hb]
    · have hf : 1 ≤ f := by omega
      have e1 := ih (wrap32 (n - 1)) hf (wrap32_le_of_le _ _ (by omega) (by omega))
      have e2 := ih (wrap32 (n - 2)) hf (wrap32_le_of_le _ _ (by omega) (by omega))
      rw [fibonacciFuel, if_neg hb, e1, e2]
      conv_rhs => rw [fibonacci, if_neg hb]

theorem factorialFuel_eq (fuel : Nat) :
    ∀ n : Int, 1 ≤ fuel → n ≤ (fuel : Int) → factorialFuel fuel n = some (factorial n) := by
  induction fuel with
  | zero => intro n h1 _; omega
  | succ f ih =>
    intro n _ hn
    by_cases hb : n ≤ 1
    · rw [factorialFuel, if_pos hb, factorial_base n hb]
    · have hf : 1 ≤ f := by omega
      have e1 := ih (wrap32 (n - 1)) hf (wrap32_le_of_le _ _ (by omega) (by omega))
      rw [factorialFuel, if_neg hb, e1]
      conv_rhs => rw [factorial, if_neg hb]

/-! ## The instrumented runs -/

theorem fibonacciLog_base (n : Int) (h : n ≤ 1) : fibonacciLog n = (n, []) := by
  rw [fibonacciLog, if_pos h]

theorem fibonacciLog_fst_aux (k : Nat) :
    ∀ n : Int, n ≤ (k : Int) → (fibonacciLog n).1 = fibonacci n := by
  induction k with
  | zero =>
    intro n hn
    rw [fibonacciLog_base n (by omega), fibonacci_base n (by omega)]
  | succ f ih =>
    intro n hn
    by_cases hb : n ≤ 1
    · rw [fibonacciLog_base n hb, fibonacci_base n hb]
    · have e1 := ih (wrap32 (n - 1)) (wrap32_le_of_le _ _ (by omega) (by omega))
      have e2 := ih (wrap32 (n - 2)) (wrap32_le_of_le _ _ (by omega) (by omega))
      rw [fibonacciLog, if_neg hb, e1, e2]
      conv_rhs => rw [fibonacci, if_neg hb]

theorem fibonacciLog_fst (n : Int) : (fibonacciLog n).1 = fibonacci n :=
  fibonacciLog_fst_aux n.toNat n (by omega)

theorem fibonacciLog_step (n : Int) (h2 : 2 ≤ n) (hn : n ≤ 2147483648) :
    (fibonacciLog n).2 =
      (fibonacciLog (n - 1)).2 ++ (fibonacciLog (n - 2)).2 ++
        [fibonacci (n - 1) + fibonacci (n - 2)] := by
  have e1 : wrap32 (n - 1) = n - 1 := by unfold wrap32; omega
  have e2 : wrap32 (n - 2) = n - 2 := by unfold wrap32; omega
  rw [fibonacciLog, if_neg (by omega), e1, e2, fibonacciLog_fst, fibonacciLog_fst]

theorem factorialLog_base (n : Int) (h : n ≤ 1) : factorialLog n = (1, []) := by
  rw [factorialLog, if_pos h]

theorem factorialLog_fst_aux (k : Nat) :
    ∀ n : Int, n ≤ (k : Int) → (factorialLog n).1 = factorial n := by
  induction k with
  | zero =>
    intro n hn
    rw [factorialLog_base n (by omega), factorial_base n (by omega)]
  | succ f ih =>
    intro n hn
    by_cases hb : n ≤ 1
    · rw [factorialLog_base n hb, factorial_base n hb]
    · have e1 := ih (wrap32 (n - 1)) (wrap32_le_of_le _ _ (by omega) (by omega))
      rw [factorialLog, if_neg hb, e1]
      conv_rhs => rw [factorial, if_neg hb]

theorem factorialLog_fst (n : Int) : (factorialLog n).1 = factorial n :=
  factorialLog_fst_aux n.toNat n (by omega)

theorem factorialLog_step (n : Int) (h2 : 2 ≤ n) (hn : n ≤ 2147483648) :
    (factorialLog n).2 = (factorialLog (n - 1)).2 ++ [n * factorial (n - 1)] := by
  have e1 : wrap32 (n - 1) = n - 1 := by unfold wrap32; omega
  rw [factorialLog, if_neg (by omega), e1, factorialLog_fst]

/-! ## Ranges of the logged operations -/

theorem fibonacciLog_inRange (k : Nat) (hk : k ≤ 46) :
    ∀ s ∈ (fibonacciLog (k : Int)).2, InRange s := by
  induction k using Nat.strong_induction_on with
  | _ k ih =>
    match k, ih, hk with
    | 0, _, _ => rw [fibonacciLog_base _ (by decide)]; simp
    | 1, _, _ => rw [fibonacciLog_base _ (by decide)]; simp
    | j + 2, ih, hk =>
      have c1 : ((j + 2 : Nat) : Int) - 1 = ((j + 1 : Nat) : Int) := by push_cast; ring
      have c0 : ((j + 2 : Nat) : Int) - 2 = (j : Int) := by push_cast; ring
      have hb : specFib (j + 2) ≤ specFib 46 := specFib_mono _ 46 hk
      have h46 : specFib 46 = 1836311903 := by decide
      rw [specFib.eq_3 j] at hb
      intro s hs
      rw [fibonacciLog_step _ (by omega) (by omega), c1, c0,
        fibonacci_eq_specFib (j + 1) (by omega), fibonacci_eq_specFib j (by omega)] at hs
      rcases List.mem_append.mp hs with hs | hs
      · rcases List.mem_append.mp hs with hs | hs
        · exact ih (j + 1) (by omega) (by omega) s hs
        · exact ih j (by omega) (by omega) s hs
      · rw [List.mem_singleton] at hs
        subst hs
        unfold InRange INT_MIN INT_MAX
        omega

theorem fibonacciLog_last_47 : (fibonacciLog 47).2.getLast? = some 2971215073 := by
  have v46 : fibonacci 46 = 1836311903 :=
    (fibonacci_eq_specFib 46 (by decide)).trans (by decide)
  have v45 : fibonacci 45 = 1134903170 :=
    (fibonacci_eq_specFib 45 (by decide)).trans (by decide)
  have c1 : (47 : Int) - 1 = 46 := by decide
  have c0 : (47 : Int) - 2 = 45 := by decide
  rw [fibonacciLog_step 47 (by decide) (by decide), c1, c0, v46, v45, List.getLast?_concat]
  rfl

theorem fibonacciLog_overflow (k : Nat) (h47 : 47 ≤ k) (hk : (k : Int) ≤ 2147483648) :
    ∃ s ∈ (fibonacciLog (k : Int)).2, ¬ InRange s := by
  induction k, h47 using Nat.le_induction with
  | base =>
    refine ⟨2971215073, ?_, by decide⟩
    exact List.mem_of_mem_getLast? fibonacciLog_last_47
  | succ j hj ih =>
    obtain ⟨s, hs, hr⟩ := ih (by omega)
    have c1 : ((j + 1 : Nat) : Int) - 1 = (j : Int) := by push_cast; ring
    refine ⟨s, ?_, hr⟩
    rw [fibonacciLog_step _ (by omega) hk, c1]
    exact List.mem_append_left _ (List.mem_append_left _ hs)

theorem factorialLog_inRange (k : Nat) (hk : k ≤ 12) :
    ∀ s ∈ (factorialLog (k : Int)).2, InRange s := by
  induction k with
  | zero => rw [factorialLog_base _ (by decide)]; simp
  | succ j ih =>
    match j, ih, hk with
    | 0, _, _ => rw [factorialLog_base _ (by decide)]; simp
    | i + 1, ih, hk =>
      have c1 : ((i + 1 + 1 : Nat) : Int) - 1 = ((i + 1 : Nat) : Int) := by push_cast; ring
      have hb : specFactorial (i + 1 + 1) ≤ specFactorial 12 := specFactorial_mono _ 12 hk
      have h12 : specFactorial 12 = 479001600 := by decide
      rw [specFactorial] at hb
      intro s hs
      rw [factorialLog_step _ (by omega) (by omega), c1,
        factorial_eq_specFactorial (i + 1) (by omega)] at hs
      rcases List.mem_append.mp hs with hs | hs
      · exact ih (by omega) s hs
      · rw [List.mem_singleton] at hs
        subst hs
        have hc : ((i + 1 + 1 : Nat) : Int) * ((specFactorial (i + 1) : Nat) : Int) =
            (((i + 1 + 1) * specFactorial (i + 1) : Nat) : Int) := by push_cast; ring
        rw [hc]
        unfold InRange INT_MIN INT_MAX
        omega

theorem factorialLog_last_13 : (factorialLog 13).2.getLast? = some 6227020800 := by
  have v12 : factorial 12 = 479001600 :=
    (factorial_eq_specFactorial 12 (by decide)).trans (by decide)
  have c1 : (13 : Int) - 1 = 12 := by decide
  rw [factorialLog_step 13 (by decide) (by decide), c1, v12, List.getLast?_concat]
  rfl

theorem factorialLog_overflow (k : Nat) (h13 : 13 ≤ k) (hk : (k : Int) ≤ 2147483648) :
    ∃ s ∈ (factorialLog (k : Int)).2, ¬ InRange s := by
  induction k, h13 using Nat.le_induction with
  | base =>
    refine ⟨6227020800, ?_, by decide⟩
    exact List.mem_of_mem_getLast? factorialLog_last_13
  | succ j hj ih =>
    obtain ⟨s, hs, hr⟩ := ih (by omega)
    have c1 : ((j + 1 : Nat) : Int) - 1 = (j : Int) := by push_cast; ring
    refine ⟨s, ?_, hr⟩
    rw [factorialLog_step _ (by omega) hk, c1]
    exact List.mem_append_left _ hs

/-! ## Termination, overflow limits and negative inputs -/

/-- C11: `fibonacci` and `factorial` terminate on every `int` input, negative inputs
included: a run whose recursion depth is bounded by `max 1 n` returns the value of the
function, every recursive call is made only when `n ≥ 2`, and its argument is smaller
than `n`, still `≥ 0`, and computed without underflow. -/
theorem recursion_terminates (n : Int) (hn : InRange n) (fuel : Nat)
    (hfuel : max 1 n.toNat ≤ fuel) :
    fibonacciFuel fuel n = some (fibonacci n) ∧
      factorialFuel fuel n = some (factorial n) ∧
      (∀ m ∈ fibonacciCallArgs n, 2 ≤ n ∧ 0 ≤ m ∧ m < n ∧ InRange m ∧ wrap32 m = m) ∧
      (∀ m ∈ factorialCallArgs n, 2 ≤ n ∧ 0 ≤ m ∧ m < n ∧ InRange m ∧ wrap32 m = m) := by
  have h1 : 1 ≤ fuel := le_trans (le_max_left _ _) hfuel
  have h2 : n.toNat ≤ fuel := le_trans (le_max_right _ _) hfuel
  have h3 : n ≤ (fuel : Int) := by omega
  unfold InRange INT_MIN INT_MAX at hn
  refine ⟨fibonacciFuel_eq fuel n h1 h3, factorialFuel_eq fuel n h1 h3, ?_, ?_⟩
  · intro m hm
    unfold fibonacciCallArgs at hm
    by_cases hb : n ≤ 1
    · rw [if_pos hb] at hm
      simp at hm
    · rw [if_neg hb] at hm
      have hr : InRange m := by
        unfold InRange INT_MIN INT_MAX
        simp only [List.mem_cons, List.mem_singleton, List.not_mem_nil, or_false] at hm
        omega
      refine ⟨by omega, ?_, ?_, hr, wrap32_of_inRange m hr⟩
      · simp only [List.mem_cons, List.mem_singleton, List.not_mem_nil, or_false] at hm
        omega
      · simp only [List.mem_cons, List.mem_singleton, List.not_mem_nil, or_false] at hm
        omega
  · intro m hm
    unfold factorialCallArgs at hm
    by_cases hb : n ≤ 1
    · rw [if_pos hb] at hm
      simp at hm
    · rw [if_neg hb] at hm
      have hr : InRange m := by
        unfold InRange INT_MIN INT_MAX
        simp only [List.mem_singleton] at hm
        omega
      refine ⟨by omega, ?_, ?_, hr, wrap32_of_inRange m hr⟩
      · simp only [List.mem_singleton] at hm
        omega
      · simp only [List.mem_singleton] at hm
        omega

theorem recursion_terminates_witness :
    (InRange (-5) ∧ max 1 (-5 : Int).toNat ≤ 1 ∧
      fibonacciFuel 1 (-5) = some (fibonacci (-5)) ∧
      factorialFuel 1 (-5) = some (factorial (-5))) ∧
    (InRange 10 ∧ max 1 (10 : Int).toNat ≤ 10 ∧
      fibonacciFuel 10 10 = some (fibonacci 10) ∧
      factorialFuel 10 10 = some (factorial 10)) :=
  ⟨⟨by decide, by decide, (recursion_terminates (-5) (by decide) 1 (by decide)).1,
      (recursion_terminates (-5) (by decide) 1 (by decide)).2.1⟩,
   ⟨by decide, by decide, (recursion_terminates 10 (by decide) 10 (by decide)).1,
      (recursion_terminates 10 (by decide) 10 (by decide)).2.1⟩⟩

/-- C12: with a 32-bit signed `int`, `n = 46` is the exact limit of overflow-free
Fibonacci computation: every addition performed by `fibonacci(n)` has its result in
`[-2^31, 2^31 - 1]` exactly when `n ≤ 46`; for `n = 47` the top-level addition yields
`F(47) = 2971215073 > 2^31 - 1`, and under wraparound `fibonacci(47) = -1323752223`,
which is not `F(47)`. -/
theorem fibonacci_overflow_limit (n : Int) (hn : InRange n) :
    (fibonacciLog n).1 = fibonacci n ∧
      ((∀ s ∈ (fibonacciLog n).2, InRange s) ↔ n ≤ 46) ∧
      (fibonacciLog 47).2.getLast? = some 2971215073 ∧
      (specFib 47 : Int) = 2971215073 ∧
      INT_MAX < 2971215073 ∧
      fibonacci 47 = -1323752223 ∧
      fibonacci 47 ≠ (specFib 47 : Int) := by
  have v47 : fibonacci 47 = -1323752223 :=
    (fibonacci_natCast 47 (by decide)).trans (by decide)
  refine ⟨fibonacciLog_fst n, ?_, fibonacciLog_last_47, by decide, by decide, v47, ?_⟩
  · unfold InRange INT_MIN INT_MAX at hn
    constructor
    · intro hall
      by_contra hgt
      have h := fibonacciLog_overflow n.toNat (by omega) (by omega)
      rw [Int.toNat_of_nonneg (by omega)] at h
      obtain ⟨s, hs, hr⟩ := h
      exact hr (hall s hs)
    · intro h46
      by_cases h0 : 0 ≤ n
      · have h := fibonacciLog_inRange n.toNat (by omega)
        rwa [Int.toNat_of_nonneg h0] at h
      · rw [fibonacciLog_base n (by omega)]
        simp
  · rw [v47]
    decide

theorem fibonacci_overflow_limit_witness :
    InRange 46 ∧ (∀ s ∈ (fibonacciLog 46).2, InRange s) ∧
      InRange 47 ∧ ¬ (∀ s ∈ (fibonacciLog 47).2, InRange s) :=
  ⟨by decide, (fibonacci_overflow_limit 46 (by decide)).2.1.mpr (by decide),
   by decide, fun h => absurd ((fibonacci_overflow_limit 47 (by decide)).2.1.mp h) (by decide)⟩

/-- C13: with a 32-bit signed `int`, `n = 12` is the exact limit of overflow-free
factorial computation: every multiplication performed by `factorial(n)` has its result
in `[-2^31, 2^31 - 1]` exactly when `n ≤ 12`; for `n = 13` the top-level multiplication
yields `13! = 6227020800 > 2^31 - 1`, and under wraparound `factorial(13) = 1932053504`,
which is not `13!`. -/
theorem factorial_overflow_limit (n : Int) (hn : InRange n) :
    (factorialLog n).1 = factorial n ∧
      ((∀ s ∈ (factorialLog n).2, InRange s) ↔ n ≤ 12) ∧
      (factorialLog 13).2.getLast? = some 6227020800 ∧
      (specFactorial 13 : Int) = 6227020800 ∧
      INT_MAX < 6227020800 ∧
      factorial 13 = 1932053504 ∧
      factorial 13 ≠ (specFactorial 13 : Int) := by
  have v13 : factorial 13 = 1932053504 :=
    (factorial_natCast 13 (by decide)).trans (by decide)
  refine ⟨factorialLog_fst n, ?_, factorialLog_last_13, by decide, by decide, v13, ?_⟩
  · unfold InRange INT_MIN INT_MAX at hn
    constructor
    · intro hall
      by_contra hgt
      have h := factorialLog_overflow n.toNat (by omega) (by omega)
      rw [Int.toNat_of_nonneg (by omega)] at h
      obtain ⟨s, hs, hr⟩ := h
      exact hr (hall s hs)
    · intro h12
      by_cases h0 : 0 ≤ n
      · have h := factorialLog_inRange n.toNat (by omega)
        rwa [Int.toNat_of_nonneg h0] at h
      · rw [factorialLog_base n (by omega)]
        simp
  · rw [v13]
    decide

theorem factorial_overflow_limit_witness :
    InRange 12 ∧ (∀ s ∈ (factorialLog 12).2, InRange s) ∧
      InRange 13 ∧ ¬ (∀ s ∈ (factorialLog 13).2, InRange s) :=
  ⟨by decide, (factorial_overflow_limit 12 (by decide)).2.1.mpr (by decide),
   by decide, fun h => absurd ((factorial_overflow_limit 13 (by decide)).2.1.mp h) (by decide)⟩

/-- C14: for every negative `int` `n`, `fibonacci(n)` returns `n` itself, without
recursing (a run of depth 1 returns, and no recursive call is made) and without any
error; the result is negative and is not a Fibonacci number. -/
theorem fibonacci_negative (n : Int) (hneg : n < 0) :
    fibonacci n = n ∧ fibonacciFuel 1 n = some n ∧ fibonacciCallArgs n = [] ∧
      (fibonacciLog n).2 = [] ∧ fibonacci n < 0 ∧
      ∀ k : Nat, fibonacci n ≠ (specFib k : Int) := by
  have hb : n ≤ 1 := by omega
  have hv : fibonacci n = n := fibonacci_base n hb
  refine ⟨hv, ?_, ?_, ?_, ?_, ?_⟩
  · rw [fibonacciFuel, if_pos hb]
  · unfold fibonacciCallArgs
    rw [if_pos hb]
  · rw [fibonacciLog_base n hb]
  · rw [hv]
    exact hneg
  · intro k hk
    rw [hv] at hk
    omega

theorem fibonacci_negative_witness :
    (-3 : Int) < 0 ∧ fibonacci (-3) = -3 ∧ fibonacciFuel 1 (-3) = some (-3) :=
  ⟨by decide, (fibonacci_negative (-3) (by decide)).1,
   (fibonacci_negative (-3) (by decide)).2.1⟩
